import Mathlib

/-
Verification of the memory subsystem of an xv6-derived teaching kernel:
the physical page allocator with copy-on-write reference counting
(kernel/kalloc.c) and the hash-partitioned disk buffer cache
(kernel/bio.c).

The embedding is shallow and sequential.  Machine pointers become natural
numbers (byte addresses), the per-frame reference-count array becomes a
function from frame index to Int, and page contents become a function
from frame index and byte offset to byte value.  The free list, which the
C code threads through the first bytes of each free page, is represented
as a sidecar list of page addresses (the specification's design notes
explicitly allow this representation).  Functions that can panic return
an Option, with none standing for the panic.  Spin locks protect data
that the sequential model mutates atomically anyway, so acquire/release
pairs have no residue in the model; the per-buffer sleep lock is kept as
a boolean field because the code branches on it.
-/

/-! ### Page allocator: data model (kernel/kalloc.c) -/

def PGSIZE : Nat := 4096

def PGROUNDUP (a : Nat) : Nat := (a + PGSIZE - 1) / PGSIZE * PGSIZE

def PGROUNDDOWN (a : Nat) : Nat := a / PGSIZE * PGSIZE

/-- State of the physical page allocator: the free list (sidecar
representation of the run-list threaded through free pages), the
reference-count array ref.cnt indexed by frame number pa / PGSIZE, and
physical memory contents as frame-indexed byte arrays. -/
structure KState where
  freelist : List Nat
  cnt : Nat → Int
  mem : Nat → Nat → Nat

instance : Inhabited KState := ⟨⟨[], fun _ => 0, fun _ _ => 0⟩⟩

/-- Embedding of kfree (kalloc.c:58-85).  Panics (none) when pa is
unaligned, below the kernel-end symbol kend, or at/above ptop (PHYSTOP).
Otherwise decrements ref.cnt[pa/PGSIZE]; exactly when the decremented
count is zero the page is filled with the poison byte 1 and pushed onto
the head of the free list. -/
def kfree (kend ptop : Nat) (s : KState) (pa : Nat) : Option KState :=
  if pa % PGSIZE ≠ 0 ∨ pa < kend ∨ ptop ≤ pa then none
  else
    let c := s.cnt (pa / PGSIZE) - 1
    let s1 : KState :=
      { s with cnt := fun i => if i = pa / PGSIZE then c else s.cnt i }
    if c = 0 then
      some { s1 with
             mem := fun p off =>
               if p = pa / PGSIZE ∧ off < PGSIZE then 1 else s1.mem p off,
             freelist := pa :: s1.freelist }
    else
      some s1

/-- Embedding of kalloc (kalloc.c:90-111).  Pops the head of the free
list (none when the list is empty, mirroring the null run pointer), sets
its reference count to 1 and fills the page with the junk byte 5. -/
def kalloc (s : KState) : Option Nat × KState :=
  match s.freelist with
  | [] => (none, s)
  | r :: rest =>
      (some r,
       { s with
         freelist := rest,
         cnt := fun i => if i = r / PGSIZE then 1 else s.cnt i,
         mem := fun p off =>
           if p = r / PGSIZE ∧ off < PGSIZE then 5 else s.mem p off })

/-- Embedding of krefcnt (kalloc.c:118-122). -/
def krefcnt (s : KState) (pa : Nat) : Int := s.cnt (pa / PGSIZE)

/-- Embedding of kaddrefcnt (kalloc.c:129-137).  Returns -1 without
touching the state on an invalid address, otherwise increments the
reference count of the frame and returns 0. -/
def kaddrefcnt (kend ptop : Nat) (s : KState) (pa : Nat) : Int × KState :=
  if pa % PGSIZE ≠ 0 ∨ pa < kend ∨ ptop ≤ pa then (-1, s)
  else
    (0, { s with cnt := fun i =>
            if i = pa / PGSIZE then s.cnt (pa / PGSIZE) + 1 else s.cnt i })

/-- Embedding of the freerange loop (kalloc.c:41-52) by structural
recursion on the number of remaining iterations.  The C loop starts at
p = PGROUNDUP(pa_start) and runs while p + PGSIZE <= pa_end, stepping by
PGSIZE, so it executes exactly (pa_end - PGROUNDUP(pa_start)) / PGSIZE
times; kinitState below passes that count.  Each iteration seeds
ref.cnt[p/PGSIZE] = 1 and calls kfree p. -/
def freerangeN (kend ptop : Nat) : Nat → Nat → KState → Option KState
  | 0, _, s => some s
  | n + 1, p, s =>
      let s1 : KState :=
        { s with cnt := fun i => if i = p / PGSIZE then 1 else s.cnt i }
      match kfree kend ptop s1 p with
      | none => none
      | some s2 => freerangeN kend ptop n (p + PGSIZE) s2

/-- Embedding of kinit (kalloc.c:32-39): from the all-zero initial state
(C global arrays are zero-initialized and the free list is empty), run
freerange(end, PHYSTOP). -/
def kinitState (kend ptop : Nat) : Option KState :=
  freerangeN kend ptop ((ptop - PGROUNDUP kend) / PGSIZE)
    (PGROUNDUP kend) ⟨[], fun _ => 0, fun _ _ => 0⟩

/-! ### Theorems for kfree (C6) and kalloc (C7) -/

/-- C6: kfree(pa) panics exactly when pa is unaligned, below end, or at
or above PHYSTOP; otherwise it decrements ref.cnt[pa/PGSIZE] by one, and
exactly when the decremented count is zero it fills the whole page with
the poison byte 1 before pushing the page onto the head of the free
list, while a nonzero count leaves the free list and all page contents
unchanged. -/
theorem kfree_spec (kend ptop : Nat) (s : KState) (pa : Nat) :
    (kfree kend ptop s pa = none ↔
      (pa % PGSIZE ≠ 0 ∨ pa < kend ∨ ptop ≤ pa)) ∧
    (∀ s', kfree kend ptop s pa = some s' →
      s'.cnt (pa / PGSIZE) = s.cnt (pa / PGSIZE) - 1 ∧
      (∀ i, i ≠ pa / PGSIZE → s'.cnt i = s.cnt i) ∧
      (s.cnt (pa / PGSIZE) - 1 = 0 →
        s'.freelist = pa :: s.freelist ∧
        (∀ off, off < PGSIZE → s'.mem (pa / PGSIZE) off = 1) ∧
        (∀ p off, p ≠ pa / PGSIZE → s'.mem p off = s.mem p off)) ∧
      (s.cnt (pa / PGSIZE) - 1 ≠ 0 →
        s'.freelist = s.freelist ∧
        (∀ p off, s'.mem p off = s.mem p off))) := by
  unfold kfree
  by_cases hbad : pa % PGSIZE ≠ 0 ∨ pa < kend ∨ ptop ≤ pa
  · simp [hbad]
  · simp only [hbad, if_false]
    refine ⟨⟨fun h => by revert h; split <;> simp, fun h => absurd h (by simp)⟩, ?_⟩
    intro s' hs'
    by_cases hz : s.cnt (pa / PGSIZE) - 1 = 0
    · rw [if_pos hz] at hs'
      injection hs' with hs'
      subst hs'
      refine ⟨by simp, fun i hi => by simp [hi], fun _ => ⟨rfl, ?_, ?_⟩,
              fun h => absurd hz h⟩
      · intro off hoff; simp [hoff]
      · intro p off hp; simp [hp]
    · rw [if_neg hz] at hs'
      injection hs' with hs'
      subst hs'
      exact ⟨by simp, fun i hi => by simp [hi],
             fun h => absurd h hz, fun _ => ⟨rfl, fun p off => rfl⟩⟩

/-- Example allocator state used by witnesses: one live frame at address
8192 with reference count 1, empty free list, all memory bytes 7. -/
def exK : KState :=
  ⟨[], fun i => if i = 2 then 1 else 0, fun _ _ => 7⟩

/-- Witness for C6: at kend = 4096, ptop = 16384, pa = 8192 the
hypotheses of kfree_spec are discharged concretely; the count reaches
zero, the page is poisoned and pushed. -/
theorem kfree_spec_witness :
    kfree 4096 16384 exK 8192 = some ((kfree 4096 16384 exK 8192).getD default) ∧
    ((kfree 4096 16384 exK 8192).getD default).freelist = 8192 :: exK.freelist ∧
    ((kfree 4096 16384 exK 8192).getD default).mem 2 0 = 1 := by
  refine ⟨rfl, ?_, ?_⟩
  · exact (((kfree_spec 4096 16384 exK 8192).2 _ rfl).2.2.1 (by decide)).1
  · exact (((kfree_spec 4096 16384 exK 8192).2 _ rfl).2.2.1 (by decide)).2.1 0 (by decide)

/-- C7: kalloc returns null exactly when the free list is empty;
otherwise it removes the head page, sets its reference count to 1, fills
all PGSIZE bytes with the junk byte 5, and returns it. -/
theorem kalloc_spec (s : KState) :
    ((kalloc s).1 = none ↔ s.freelist = []) ∧
    (∀ r rest, s.freelist = r :: rest →
      (kalloc s).1 = some r ∧
      (kalloc s).2.freelist = rest ∧
      (kalloc s).2.cnt (r / PGSIZE) = 1 ∧
      (∀ off, off < PGSIZE → (kalloc s).2.mem (r / PGSIZE) off = 5) ∧
      (∀ i, i ≠ r / PGSIZE → (kalloc s).2.cnt i = s.cnt i)) := by
  cases hl : s.freelist with
  | nil => simp [kalloc, hl]
  | cons r rest =>
      constructor
      · simp [kalloc, hl]
      · intro r' rest' hr'
        injection hr' with h1 h2
        subst h1
        subst h2
        refine ⟨by simp [kalloc, hl], by simp [kalloc, hl], by simp [kalloc, hl], ?_, ?_⟩
        · intro off hoff; simp [kalloc, hl, hoff]
        · intro i hi; simp [kalloc, hl, hi]

/-- Second example allocator state for the kalloc witness: free list
holding page 12288. -/
def exK2 : KState :=
  ⟨[12288], fun _ => 0, fun _ _ => 7⟩

/-- Witness for C7: on a state whose free list is [12288] the
hypotheses of kalloc_spec are discharged concretely. -/
theorem kalloc_spec_witness :
    (kalloc exK2).1 = some 12288 ∧
    (kalloc exK2).2.freelist = [] ∧
    (kalloc exK2).2.cnt 3 = 1 ∧
    (kalloc exK2).2.mem 3 5 = 5 := by
  have h := (kalloc_spec exK2).2 12288 [] rfl
  exact ⟨h.1, h.2.1, h.2.2.1, h.2.2.2.1 5 (by decide)⟩

/-! ### Free-list/refcount duality (C2) -/

/-- Operation language for the allocator sequences of the duality claim:
kalloc, kfree(pa), kaddrefcnt(pa). -/
inductive KOp where
  | alloc : KOp
  | free : Nat → KOp
  | addref : Nat → KOp
deriving DecidableEq

/-- One allocator call as a state transition; none is a kfree panic. -/
def kstep (kend ptop : Nat) (s : KState) : KOp → Option KState
  | KOp.alloc => some (kalloc s).2
  | KOp.free pa => kfree kend ptop s pa
  | KOp.addref pa => some (kaddrefcnt kend ptop s pa).2

/-- Execution of a call sequence, stopping at a panic. -/
def kexec (kend ptop : Nat) : KState → List KOp → Option KState
  | s, [] => some s
  | s, op :: ops =>
      match kstep kend ptop s op with
      | none => none
      | some s1 => kexec kend ptop s1 ops

/-- Argument validity as checked by the code itself: kfree's panic guard
and kaddrefcnt's error guard both accept exactly the page-aligned
addresses in [end, PHYSTOP). -/
def validArgB (kend ptop pa : Nat) : Bool :=
  decide (pa % PGSIZE = 0 ∧ kend ≤ pa ∧ pa < ptop)

/-- Protocol validity of one call (used by the amended claim): kfree and
kaddrefcnt are applied only to valid addresses whose frame currently has
reference count at least 1, i.e. to live pages. -/
def okOpB (kend ptop : Nat) (s : KState) : KOp → Bool
  | KOp.alloc => true
  | KOp.free pa =>
      decide (pa % PGSIZE = 0 ∧ kend ≤ pa ∧ pa < ptop ∧ 1 ≤ s.cnt (pa / PGSIZE))
  | KOp.addref pa =>
      decide (pa % PGSIZE = 0 ∧ kend ≤ pa ∧ pa < ptop ∧ 1 ≤ s.cnt (pa / PGSIZE))

/-- Protocol validity of a call sequence, each call checked in the state
it actually runs in. -/
def okSeqB (kend ptop : Nat) : KState → List KOp → Bool
  | _, [] => true
  | s, op :: ops =>
      okOpB kend ptop s op &&
        (match kstep kend ptop s op with
         | none => false
         | some s1 => okSeqB kend ptop s1 ops)

/-- Property (P1) of the specification: a managed frame is on the free
list iff its reference count is zero.  With PHYSTOP page-aligned the
frames i with i < PHYSTOP / PGSIZE and PGROUNDUP(end) <= i * PGSIZE are
exactly the frames of the managed range [PGROUNDUP(end), PHYSTOP). -/
def FreeDuality (kend ptop : Nat) (s : KState) : Prop :=
  ∀ i, i < ptop / PGSIZE → PGROUNDUP kend ≤ i * PGSIZE →
    ((i * PGSIZE) ∈ s.freelist ↔ s.cnt i = 0)

instance (kend ptop : Nat) (s : KState) : Decidable (FreeDuality kend ptop s) := by
  unfold FreeDuality
  infer_instance

/-- Strengthened inductive invariant: duality plus the free list having
no duplicates and holding only page-aligned managed addresses. -/
def InvStrong (kend ptop : Nat) (s : KState) : Prop :=
  FreeDuality kend ptop s ∧ s.freelist.Nodup ∧
    ∀ a ∈ s.freelist, a % PGSIZE = 0 ∧ PGROUNDUP kend ≤ a ∧ a + PGSIZE ≤ ptop

theorem pgroundup_le (a : Nat) : a ≤ PGROUNDUP a := by
  unfold PGROUNDUP PGSIZE; omega

theorem aligned_ge_roundup (kend a : Nat) (h1 : a % PGSIZE = 0)
    (h2 : kend ≤ a) : PGROUNDUP kend ≤ a := by
  unfold PGROUNDUP PGSIZE at *; omega

theorem frame_addr (a : Nat) (h : a % PGSIZE = 0) :
    a / PGSIZE * PGSIZE = a := by
  unfold PGSIZE at *; omega

theorem frame_ne (a i : Nat) (h : a % PGSIZE = 0) (hne : i ≠ a / PGSIZE) :
    i * PGSIZE ≠ a := by
  unfold PGSIZE at *; omega

/-- One protocol-valid allocator call preserves the strengthened
invariant. -/
theorem kstep_preserves_inv (kend ptop : Nat) (hal : ptop % PGSIZE = 0)
    (s : KState) (hs : InvStrong kend ptop s) (op : KOp)
    (hop : okOpB kend ptop s op = true) (s' : KState)
    (hstep : kstep kend ptop s op = some s') : InvStrong kend ptop s' := by
  obtain ⟨hd, hnd, hgood⟩ := hs
  cases op with
  | alloc =>
      simp only [kstep, Option.some.injEq] at hstep
      cases hl : s.freelist with
      | nil =>
          rw [show (kalloc s).2 = s by rw [kalloc, hl]] at hstep
          subst hstep; exact ⟨hd, hnd, hgood⟩
      | cons r t =>
          have hr := hgood r (by rw [hl]; exact List.mem_cons_self r t)
          have hndt : r ∉ t ∧ t.Nodup := List.nodup_cons.mp (by rw [hl] at hnd; exact hnd)
          rw [kalloc, hl] at hstep
          dsimp only at hstep
          subst hstep
          refine ⟨?_, hndt.2, fun a ha => hgood a (by rw [hl]; exact List.mem_cons_of_mem r ha)⟩
          intro i hi hru
          dsimp only
          by_cases hir : i = r / PGSIZE
          · subst hir
            rw [if_pos rfl, frame_addr r hr.1]
            constructor
            · intro hmem; exact absurd hmem hndt.1
            · intro h10; omega
          · rw [if_neg hir]
            have hne := frame_ne r i hr.1 hir
            have hdi := hd i hi hru
            rw [hl] at hdi
            rw [← hdi]
            simp [List.mem_cons, hne]
  | free pa =>
      have hop' := of_decide_eq_true hop
      obtain ⟨hpal, hge, hlt, hcnt⟩ := hop'
      have hbad : ¬(pa % PGSIZE ≠ 0 ∨ pa < kend ∨ ptop ≤ pa) := by omega
      have hru : PGROUNDUP kend ≤ pa := aligned_ge_roundup kend pa hpal hge
      have hfr : pa / PGSIZE < ptop / PGSIZE := by
        unfold PGSIZE at *; omega
      have hpnotin : pa ∉ s.freelist := by
        intro hmem
        have := (hd (pa / PGSIZE) hfr (by rw [frame_addr pa hpal]; exact hru)).mp
          (by rw [frame_addr pa hpal]; exact hmem)
        omega
      simp only [kstep, kfree, hbad, if_false] at hstep
      by_cases hz : s.cnt (pa / PGSIZE) - 1 = 0
      · rw [if_pos hz] at hstep
        injection hstep with hstep
        subst hstep
        refine ⟨?_, List.nodup_cons.mpr ⟨hpnotin, hnd⟩, ?_⟩
        · intro i hi hru2
          dsimp only
          by_cases hir : i = pa / PGSIZE
          · subst hir
            rw [if_pos rfl, frame_addr pa hpal]
            simp [hz]
          · rw [if_neg hir]
            have hne := frame_ne pa i hpal hir
            rw [← hd i hi hru2]
            simp [List.mem_cons, hne]
        · intro a ha
          rcases List.mem_cons.mp ha with h | h
          · subst h; exact ⟨hpal, hru, by unfold PGSIZE at *; omega⟩
          · exact hgood a h
      · rw [if_neg hz] at hstep
        injection hstep with hstep
        subst hstep
        refine ⟨?_, hnd, hgood⟩
        intro i hi hru2
        dsimp only
        by_cases hir : i = pa / PGSIZE
        · subst hir
          rw [if_pos rfl, frame_addr pa hpal]
          exact ⟨fun hmem => absurd hmem hpnotin, fun h0 => absurd h0 hz⟩
        · rw [if_neg hir]
          exact hd i hi hru2
  | addref pa =>
      have hop' := of_decide_eq_true hop
      obtain ⟨hpal, hge, hlt, hcnt⟩ := hop'
      have hbad : ¬(pa % PGSIZE ≠ 0 ∨ pa < kend ∨ ptop ≤ pa) := by omega
      have hru : PGROUNDUP kend ≤ pa := aligned_ge_roundup kend pa hpal hge
      have hfr : pa / PGSIZE < ptop / PGSIZE := by
        unfold PGSIZE at *; omega
      have hpnotin : pa ∉ s.freelist := by
        intro hmem
        have := (hd (pa / PGSIZE) hfr (by rw [frame_addr pa hpal]; exact hru)).mp
          (by rw [frame_addr pa hpal]; exact hmem)
        omega
      simp only [kstep, kaddrefcnt, hbad, if_false, Option.some.injEq] at hstep
      subst hstep
      refine ⟨?_, hnd, hgood⟩
      intro i hi hru2
      dsimp only
      by_cases hir : i = pa / PGSIZE
      · subst hir
        rw [if_pos rfl, frame_addr pa hpal]
        constructor
        · intro hmem; exact absurd hmem hpnotin
        · intro h0; omega
      · rw [if_neg hir]
        exact hd i hi hru2

/-- Protocol-valid call sequences preserve the strengthened invariant. -/
theorem kexec_preserves_inv (kend ptop : Nat) (hal : ptop % PGSIZE = 0) :
    ∀ (ops : List KOp) (s : KState), InvStrong kend ptop s →
      okSeqB kend ptop s ops = true →
      ∀ s', kexec kend ptop s ops = some s' → InvStrong kend ptop s' := by
  intro ops
  induction ops with
  | nil =>
      intro s hs _ s' h
      simp only [kexec, Option.some.injEq] at h
      subst h; exact hs
  | cons op rest ih =>
      intro s hs hseq s' h
      simp only [okSeqB, Bool.and_eq_true] at hseq
      obtain ⟨hop, hrest⟩ := hseq
      simp only [kexec] at h
      cases hstep : kstep kend ptop s op with
      | none => rw [hstep] at h hrest; cases h
      | some s1 =>
          rw [hstep] at h hrest
          exact ih s1 (kstep_preserves_inv kend ptop hal s hs op hop s1 hstep) hrest s' h

/-- Loop invariant of the freerange initialization: with n iterations to
go at position p, the free list holds exactly the already-processed
managed pages (no duplicates, all aligned, all below p) with reference
count zero, and every frame at or beyond p still has count zero and is
not yet linked. -/
def KinitInv (kend ptop p n : Nat) (s : KState) : Prop :=
  p % PGSIZE = 0 ∧ PGROUNDUP kend ≤ p ∧
  (p + n * PGSIZE ≤ ptop ∨ n = 0) ∧
  s.freelist.Nodup ∧
  (∀ a ∈ s.freelist,
     a % PGSIZE = 0 ∧ PGROUNDUP kend ≤ a ∧ a + PGSIZE ≤ ptop ∧ a < p) ∧
  (∀ i, PGROUNDUP kend ≤ i * PGSIZE → i * PGSIZE < p →
     (i * PGSIZE) ∈ s.freelist ∧ s.cnt i = 0) ∧
  (∀ i, p ≤ i * PGSIZE → (i * PGSIZE) ∉ s.freelist ∧ s.cnt i = 0)

theorem freerangeN_inv (kend ptop : Nat) :
    ∀ (n p : Nat) (s : KState), KinitInv kend ptop p n s →
      ∀ s', freerangeN kend ptop n p s = some s' →
        KinitInv kend ptop (p + n * PGSIZE) 0 s' := by
  intro n
  induction n with
  | zero =>
      intro p s hinv s' h
      simp only [freerangeN, Option.some.injEq] at h
      subst h
      simpa using hinv
  | succ n ih =>
      intro p s hinv s' h
      obtain ⟨hpal, hpru, hbound, hnd, hmem, hdone, htodo⟩ := hinv
      have hple : p + PGSIZE ≤ ptop := by
        rcases hbound with hb | hb
        · unfold PGSIZE at *; omega
        · cases hb
      have hkend : kend ≤ p := le_trans (pgroundup_le kend) hpru
      have hbad : ¬(p % PGSIZE ≠ 0 ∨ p < kend ∨ ptop ≤ p) := by
        unfold PGSIZE at *; omega
      have hpnotin : p ∉ s.freelist := by
        have := (htodo (p / PGSIZE) (by rw [frame_addr p hpal])).1
        rw [frame_addr p hpal] at this
        exact this
      have hc : (if p / PGSIZE = p / PGSIZE then (1 : Int)
          else s.cnt (p / PGSIZE)) - 1 = 0 := by
        rw [if_pos rfl]; decide
      have hkf : kfree kend ptop
          { s with cnt := fun i => if i = p / PGSIZE then 1 else s.cnt i } p
          = some ⟨p :: s.freelist,
                  fun i => if i = p / PGSIZE then 0 else s.cnt i,
                  fun pg off => if pg = p / PGSIZE ∧ off < PGSIZE then 1
                                else s.mem pg off⟩ := by
        unfold kfree
        rw [if_neg hbad]
        dsimp only
        rw [if_pos hc]
        congr 1
        congr 1
        funext i
        by_cases hi : i = p / PGSIZE
        · subst hi
          rw [if_pos rfl, if_pos rfl, if_pos rfl]
          decide
        · rw [if_neg hi, if_neg hi, if_neg hi]
      simp only [freerangeN] at h
      rw [hkf] at h
      dsimp only at h
      have hinv2 : KinitInv kend ptop (p + PGSIZE) n
          ⟨p :: s.freelist,
           fun i => if i = p / PGSIZE then 0 else s.cnt i,
           fun pg off => if pg = p / PGSIZE ∧ off < PGSIZE then 1
                         else s.mem pg off⟩ := by
        refine ⟨by unfold PGSIZE at *; omega, by omega, ?_, ?_, ?_, ?_, ?_⟩
        · rcases hbound with hb | hb
          · left; unfold PGSIZE at *; omega
          · cases hb
        · exact List.nodup_cons.mpr ⟨hpnotin, hnd⟩
        · intro a ha
          rcases List.mem_cons.mp ha with hh | hh
          · subst hh; exact ⟨hpal, hpru, hple, by unfold PGSIZE; omega⟩
          · have := hmem a hh
            exact ⟨this.1, this.2.1, this.2.2.1, by unfold PGSIZE at *; omega⟩
        · intro i hiru hilt
          dsimp only
          by_cases hip : i * PGSIZE < p
          · have := hdone i hiru hip
            have hine : i ≠ p / PGSIZE := by
              intro hh; subst hh; rw [frame_addr p hpal] at hip; omega
            rw [if_neg hine]
            exact ⟨List.mem_cons_of_mem p this.1, this.2⟩
          · have hieq : i = p / PGSIZE := by
              unfold PGSIZE at *; omega
            subst hieq
            rw [if_pos rfl, frame_addr p hpal]
            exact ⟨List.mem_cons_self p s.freelist, rfl⟩
        · intro i hige
          dsimp only
          have hine : i ≠ p / PGSIZE := by
            intro hh; subst hh; rw [frame_addr p hpal] at hige
            unfold PGSIZE at *; omega
          have hgt : p ≤ i * PGSIZE := by unfold PGSIZE at *; omega
          rw [if_neg hine]
          refine ⟨?_, (htodo i hgt).2⟩
          intro hmem2
          rcases List.mem_cons.mp hmem2 with hh | hh
          · have := frame_ne p i hpal hine
            unfold PGSIZE at *; omega
          · exact (htodo i hgt).1 hh
      have hres := ih (p + PGSIZE) _ hinv2 s' h
      have harith : p + PGSIZE + n * PGSIZE = p + (n + 1) * PGSIZE := by ring
      rwa [harith] at hres

/-- The post-kinit state satisfies the strengthened invariant. -/
theorem kinit_invStrong (kend ptop : Nat) (hal : ptop % PGSIZE = 0)
    (s0 : KState) (h : kinitState kend ptop = some s0) :
    InvStrong kend ptop s0 := by
  have hrual : PGROUNDUP kend % PGSIZE = 0 := by
    unfold PGROUNDUP PGSIZE; omega
  have hinv0 : KinitInv kend ptop (PGROUNDUP kend)
      ((ptop - PGROUNDUP kend) / PGSIZE) ⟨[], fun _ => 0, fun _ _ => 0⟩ := by
    refine ⟨hrual, le_refl _, ?_, List.nodup_nil, ?_, ?_, ?_⟩
    · unfold PGSIZE at *; omega
    · intro a ha; exact absurd ha (List.not_mem_nil a)
    · intro i h1 h2; exact absurd h2 (not_lt.mpr h1)
    · intro i _; exact ⟨List.not_mem_nil _, rfl⟩
  have hfin := freerangeN_inv kend ptop _ _ _ hinv0 s0 h
  obtain ⟨_, _, _, hnd, hmem, hdone, _⟩ := hfin
  refine ⟨?_, hnd, fun a ha => ⟨(hmem a ha).1, (hmem a ha).2.1, (hmem a ha).2.2.1⟩⟩
  intro i hi hru
  have hlt : i * PGSIZE <
      PGROUNDUP kend + (ptop - PGROUNDUP kend) / PGSIZE * PGSIZE := by
    unfold PGSIZE at *; omega
  have := hdone i hru hlt
  exact ⟨fun _ => this.2, fun _ => this.1⟩

/-- C2 (amended): starting from the post-kinit state, every sequence of
kalloc, kfree, and kaddrefcnt calls in which each kfree and kaddrefcnt
is applied to a page-aligned address of [end, PHYSTOP) whose frame has
reference count at least 1 at the time of the call preserves the
invariant that a managed frame is on the free list iff its reference
count is zero. -/
theorem kexec_duality (kend ptop : Nat) (hal : ptop % PGSIZE = 0)
    (s0 : KState) (h0 : kinitState kend ptop = some s0)
    (ops : List KOp) (hops : okSeqB kend ptop s0 ops = true)
    (s1 : KState) (h1 : kexec kend ptop s0 ops = some s1) :
    FreeDuality kend ptop s1 :=
  (kexec_preserves_inv kend ptop hal ops s0
    (kinit_invStrong kend ptop hal s0 h0) hops s1 h1).1

/-- Counterexample to C2 as stated: with end = 8192 and PHYSTOP = 16384
(two managed frames), duality holds after kinit, the call
kaddrefcnt(8192) passes the code's own argument validity check (it
returns 0, not -1), yet afterwards frame 2 is still on the free list
while its reference count is 1, so the duality is broken. -/
theorem kaddrefcnt_breaks_duality :
    (kinitState 8192 16384).isSome = true ∧
    FreeDuality 8192 16384 ((kinitState 8192 16384).getD default) ∧
    validArgB 8192 16384 8192 = true ∧
    (kaddrefcnt 8192 16384 ((kinitState 8192 16384).getD default) 8192).1 = 0 ∧
    ¬ FreeDuality 8192 16384
        (kaddrefcnt 8192 16384 ((kinitState 8192 16384).getD default) 8192).2 := by
  decide

/-- Witness for the amended C2: with end = 8192, PHYSTOP = 16384, the
protocol-valid sequence [kalloc, kfree 12288] is executed from the
post-kinit state and duality is preserved, with every hypothesis of
kexec_duality discharged concretely. -/
theorem kexec_duality_witness :
    (kinitState 8192 16384).isSome = true ∧
    okSeqB 8192 16384 ((kinitState 8192 16384).getD default)
      [KOp.alloc, KOp.free 12288] = true ∧
    FreeDuality 8192 16384
      ((kexec 8192 16384 ((kinitState 8192 16384).getD default)
        [KOp.alloc, KOp.free 12288]).getD default) := by
  refine ⟨by decide, by decide, ?_⟩
  exact kexec_duality 8192 16384 (by decide)
    ((kinitState 8192 16384).getD default) rfl
    [KOp.alloc, KOp.free 12288] (by decide)
    ((kexec 8192 16384 ((kinitState 8192 16384).getD default)
      [KOp.alloc, KOp.free 12288]).getD default) rfl

/-! ### Copy-on-write allocator (C3, kalloc.c cowalloc) -/

/-- Flag bits of a leaf page-table entry, as a record: valid (PTE_V),
writable (PTE_W), user (PTE_U), the COW marker (PTE_F, an RSW bit), and
the remaining permission bits (R, X, G, A, D, ...) bundled as an opaque
word that the modelled code never touches. -/
structure PteFlags where
  v : Bool
  w : Bool
  u : Bool
  fcow : Bool
  rest : Nat
deriving DecidableEq

/-- Leaf page-table entry: physical page base address plus flags.
PTE_FLAGS of the C code is the flags component; the pa component is the
PTE2PA part. -/
structure Pte where
  pa : Nat
  flags : PteFlags
deriving DecidableEq

/-- Combined state for cowalloc: the page table of the faulting process
(partial map from page-aligned virtual address to leaf entry, standing
for what walk(pagetable, va, 0) resolves) and the allocator state. -/
structure CowState where
  pt : Nat → Option Pte
  k : KState

instance : Inhabited CowState := ⟨⟨fun _ => none, default⟩⟩

/-- Modelled from the spec: walkaddr (the page-table collaborator of
section 6, not part of src/) returns the physical address of the page
mapped at va, or 0 if there is no entry or the entry is not valid or
not user-accessible. -/
def walkaddr (pt : Nat → Option Pte) (va : Nat) : Nat :=
  match pt va with
  | none => 0
  | some pte => if pte.flags.v ∧ pte.flags.u then pte.pa else 0

/-- Modelled from the spec: mappages (the page-table collaborator of
section 6, not part of src/) for a one-page range installs a leaf entry
for va with the given permissions plus PTE_V, and fails (none) if the
entry for va is already valid; the boolean oracle allocFail stands for
the other err cause, failure to allocate an intermediate page-table
page, which makes mappages fail before touching the leaf entry. -/
def mappages (pt : Nat → Option Pte) (va pa : Nat) (perm : PteFlags)
    (allocFail : Bool) : Option (Nat → Option Pte) :=
  if allocFail then none
  else
    match pt va with
    | some pte => if pte.flags.v then none else
        some (fun x => if x = va then some ⟨pa, { perm with v := true }⟩ else pt x)
    | none => some (fun x => if x = va then some ⟨pa, { perm with v := true }⟩ else pt x)

/-- Embedding of cowalloc (kalloc.c:163-203).  Returns the physical
address the faulting va should use, 0 on failure, and the next state;
none is a propagated kfree panic.  The allocFail oracle feeds the
modelled mappages. -/
def cowalloc (kend ptop : Nat) (allocFail : Bool) (s : CowState)
    (va : Nat) : Option (Nat × CowState) :=
  if va % PGSIZE ≠ 0 then some (0, s)
  else
    let pa := walkaddr s.pt va
    if pa = 0 then some (0, s)
    else
      match s.pt va with
      | none => some (0, s)
      | some pte =>
        if krefcnt s.k pa = 1 then
          some (pa,
            { s with pt := fun x =>
                if x = va then some ⟨pte.pa, { pte.flags with w := true, fcow := false }⟩
                else s.pt x })
        else
          match kalloc s.k with
          | (none, k1) => some (0, { s with k := k1 })
          | (some mem, k1) =>
            let k2 : KState :=
              { k1 with mem := fun pg off =>
                  if pg = mem / PGSIZE ∧ off < PGSIZE then
                    k1.mem (pa / PGSIZE) off
                  else k1.mem pg off }
            let fl1 : PteFlags := { pte.flags with v := false }
            let perm : PteFlags := { fl1 with w := true, fcow := false }
            match mappages (fun x => if x = va then some ⟨pte.pa, fl1⟩ else s.pt x)
                va mem perm allocFail with
            | none =>
              match kfree kend ptop k2 mem with
              | none => none
              | some k3 =>
                some (0,
                  { pt := fun x =>
                      if x = va then some ⟨pte.pa, { fl1 with v := true }⟩
                      else s.pt x,
                    k := k3 })
            | some pt2 =>
              match kfree kend ptop k2 (PGROUNDDOWN pa) with
              | none => none
              | some k3 => some (mem, { pt := pt2, k := k3 })

theorem div_ne (a b : Nat) (ha : a % PGSIZE = 0) (hb : b % PGSIZE = 0)
    (hne : a ≠ b) : a / PGSIZE ≠ b / PGSIZE := by
  unfold PGSIZE at *; omega

theorem mappages_allocFail (pt : Nat → Option Pte) (va pa : Nat)
    (perm : PteFlags) : mappages pt va pa perm true = none := rfl

theorem kfree_reclaim (kend ptop : Nat) (s : KState) (pa : Nat)
    (hok : ¬(pa % PGSIZE ≠ 0 ∨ pa < kend ∨ ptop ≤ pa))
    (hc : s.cnt (pa / PGSIZE) - 1 = 0) :
    kfree kend ptop s pa = some
      ⟨pa :: s.freelist,
       fun i => if i = pa / PGSIZE then s.cnt (pa / PGSIZE) - 1 else s.cnt i,
       fun p off => if p = pa / PGSIZE ∧ off < PGSIZE then 1
                    else s.mem p off⟩ := by
  unfold kfree
  rw [if_neg hok]
  dsimp only
  rw [if_pos hc]

theorem kfree_noreclaim (kend ptop : Nat) (s : KState) (pa : Nat)
    (hok : ¬(pa % PGSIZE ≠ 0 ∨ pa < kend ∨ ptop ≤ pa))
    (hc : s.cnt (pa / PGSIZE) - 1 ≠ 0) :
    kfree kend ptop s pa = some
      ⟨s.freelist,
       fun i => if i = pa / PGSIZE then s.cnt (pa / PGSIZE) - 1 else s.cnt i,
       s.mem⟩ := by
  unfold kfree
  rw [if_neg hok]
  dsimp only
  rw [if_neg hc]

theorem kalloc_cons (s : KState) (m : Nat) (rest : List Nat)
    (h : s.freelist = m :: rest) :
    kalloc s = (some m,
      ⟨rest,
       fun i => if i = m / PGSIZE then 1 else s.cnt i,
       fun p off => if p = m / PGSIZE ∧ off < PGSIZE then 5
                    else s.mem p off⟩) := by
  rw [kalloc, h]

theorem kalloc_nil (s : KState) (h : s.freelist = []) :
    kalloc s = (none, s) := by
  rw [kalloc, h]

theorem mappages_cow (s : CowState) (va m ppa : Nat) (fw ff : Bool) (fr : Nat) :
    mappages (fun x => if x = va then some ⟨ppa, ⟨false, fw, true, ff, fr⟩⟩
        else s.pt x) va m ⟨false, true, true, false, fr⟩ false =
    some (fun x => if x = va then some ⟨m, ⟨true, true, true, false, fr⟩⟩
          else (fun x => if x = va then some ⟨ppa, ⟨false, fw, true, ff, fr⟩⟩
                else s.pt x) x) := by
  unfold mappages
  rw [if_neg Bool.false_ne_true]
  dsimp only
  rw [if_pos (show va = va from rfl)]
  dsimp only
  rw [if_neg Bool.false_ne_true]

/-- C3: for a page-aligned va mapped to pa: with refcount 1 cowalloc
just sets the write bit and clears PTE_F on the entry and returns pa
without allocating; otherwise it pops a fresh page from the free list,
copies pa's PGSIZE bytes into it, remaps va to it with flags
(old | PTE_W) & ~PTE_F (valid set), decrements pa's refcount and returns
the new page; it returns 0 leaving the state unchanged when va is
unmapped or the free list is empty, and on mappages failure (the
allocFail oracle) it returns 0 with the fresh page freed again and the
old entry fully restored, valid bit included. -/
theorem cowalloc_spec (kend ptop : Nat) (allocFail : Bool) (s : CowState)
    (va : Nat) (pte : Pte)
    (hva : va % PGSIZE = 0) (hpte : s.pt va = some pte)
    (hv : pte.flags.v = true) (hu : pte.flags.u = true) (hpa0 : pte.pa ≠ 0) :
    (∀ (t : CowState) (w : Nat), walkaddr t.pt w = 0 →
       cowalloc kend ptop allocFail t w = some (0, t)) ∧
    (s.k.cnt (pte.pa / PGSIZE) = 1 →
       cowalloc kend ptop allocFail s va =
         some (pte.pa,
           { s with pt := fun x =>
               if x = va then
                 some ⟨pte.pa, { pte.flags with w := true, fcow := false }⟩
               else s.pt x })) ∧
    (s.k.cnt (pte.pa / PGSIZE) ≠ 1 → s.k.freelist = [] →
       cowalloc kend ptop allocFail s va = some (0, s)) ∧
    (∀ m rest, s.k.cnt (pte.pa / PGSIZE) ≠ 1 → s.k.freelist = m :: rest →
       m % PGSIZE = 0 → kend ≤ m → m < ptop → allocFail = true →
       (cowalloc kend ptop allocFail s va).isSome = true ∧
       ∀ p2, cowalloc kend ptop allocFail s va = some p2 →
         p2.1 = 0 ∧ p2.2.pt va = some pte ∧
         (∀ x, x ≠ va → p2.2.pt x = s.pt x) ∧
         p2.2.k.freelist = s.k.freelist ∧
         p2.2.k.cnt (m / PGSIZE) = 0 ∧
         (∀ i, i ≠ m / PGSIZE → p2.2.k.cnt i = s.k.cnt i)) ∧
    (∀ m rest, s.k.cnt (pte.pa / PGSIZE) ≠ 1 → s.k.freelist = m :: rest →
       m % PGSIZE = 0 → kend ≤ m → m < ptop → allocFail = false →
       pte.pa % PGSIZE = 0 → kend ≤ pte.pa → pte.pa < ptop →
       pte.pa ∉ s.k.freelist →
       (cowalloc kend ptop allocFail s va).isSome = true ∧
       ∀ p2, cowalloc kend ptop allocFail s va = some p2 →
         p2.1 = m ∧
         p2.2.pt va = some ⟨m, ⟨true, true, pte.flags.u, false, pte.flags.rest⟩⟩ ∧
         (∀ x, x ≠ va → p2.2.pt x = s.pt x) ∧
         p2.2.k.freelist = rest ∧
         p2.2.k.cnt (m / PGSIZE) = 1 ∧
         p2.2.k.cnt (pte.pa / PGSIZE) = s.k.cnt (pte.pa / PGSIZE) - 1 ∧
         (∀ i, i ≠ m / PGSIZE → i ≠ pte.pa / PGSIZE → p2.2.k.cnt i = s.k.cnt i) ∧
         (∀ off, off < PGSIZE →
            p2.2.k.mem (m / PGSIZE) off = s.k.mem (pte.pa / PGSIZE) off) ∧
         (∀ off, p2.2.k.mem (pte.pa / PGSIZE) off = s.k.mem (pte.pa / PGSIZE) off)) := by
  obtain ⟨ppa, fv, fw, fu, ff, fr⟩ := pte
  dsimp only at hv hu hpa0 hpte
  subst hv
  subst hu
  have hwa : walkaddr s.pt va = ppa := by
    unfold walkaddr; rw [hpte]; simp
  have hnva : ¬ va % PGSIZE ≠ 0 := fun hcon => hcon hva
  refine ⟨?_, ?_, ?_, ?_, ?_⟩
  · intro t w hw0
    unfold cowalloc
    split
    · rfl
    · simp [hw0]
  · intro hcnt1
    dsimp only at hcnt1 ⊢
    unfold cowalloc
    rw [if_neg hnva, hwa]
    dsimp only
    rw [if_neg hpa0, hpte]
    dsimp only
    simp only [krefcnt]
    rw [if_pos hcnt1]
  · intro hcnt hfl
    dsimp only at hcnt
    unfold cowalloc
    rw [if_neg hnva, hwa]
    dsimp only
    rw [if_neg hpa0, hpte]
    dsimp only
    simp only [krefcnt]
    rw [if_neg hcnt, kalloc_nil s.k hfl]
  · intro m rest hcnt hfl hmal hmge hmlt hAF
    dsimp only at hcnt
    subst hAF
    have hbadm : ¬(m % PGSIZE ≠ 0 ∨ m < kend ∨ ptop ≤ m) := by omega
    have hred : cowalloc kend ptop true s va = cowalloc kend ptop true s va := rfl
    conv at hred =>
      rhs
      rw [cowalloc, if_neg hnva, hwa]
      dsimp only
      rw [if_neg hpa0, hpte]
      dsimp only
      simp only [krefcnt]
      rw [if_neg hcnt, kalloc_cons s.k m rest hfl]
      dsimp only
      rw [mappages_allocFail]
      dsimp only
      rw [kfree_reclaim kend ptop _ m hbadm
        (by dsimp only; rw [if_pos (show m / PGSIZE = m / PGSIZE from rfl)]; decide)]
      dsimp only
    refine ⟨by rw [hred]; rfl, ?_⟩
    intro p2 hp2
    rw [hred] at hp2
    injection hp2 with hp2
    subst hp2
    refine ⟨rfl, by simp, fun x hx => by simp [hx], by simp [hfl], by simp, ?_⟩
    intro i hi
    simp [hi]
  · intro m rest hcnt hfl hmal hmge hmlt hAF hpaal hpage hpalt hpanotin
    dsimp only at hcnt hpaal hpage hpalt hpanotin
    subst hAF
    have hmne : m ≠ ppa := by
      intro hh; subst hh
      exact hpanotin (by rw [hfl]; exact List.mem_cons_self m rest)
    have hfrne : ppa / PGSIZE ≠ m / PGSIZE :=
      div_ne ppa m hpaal hmal (fun hh => hmne hh.symm)
    have hbadp : ¬(ppa % PGSIZE ≠ 0 ∨ ppa < kend ∨ ptop ≤ ppa) := by omega
    have hred : cowalloc kend ptop false s va = cowalloc kend ptop false s va := rfl
    conv at hred =>
      rhs
      rw [cowalloc, if_neg hnva, hwa]
      dsimp only
      rw [if_neg hpa0, hpte]
      dsimp only
      simp only [krefcnt]
      rw [if_neg hcnt, kalloc_cons s.k m rest hfl]
      dsimp only
      rw [mappages_cow s va m ppa fw ff fr]
      dsimp only
      rw [show PGROUNDDOWN ppa = ppa from frame_addr ppa hpaal]
      rw [kfree_noreclaim kend ptop _ ppa hbadp
        (by dsimp only; rw [if_neg hfrne]; omega)]
      dsimp only
    refine ⟨by rw [hred]; rfl, ?_⟩
    intro p2 hp2
    rw [hred] at hp2
    injection hp2 with hp2
    subst hp2
    refine ⟨rfl, by simp, fun x hx => by simp [hx], rfl, ?_, ?_, ?_, ?_, ?_⟩
    · simp [Ne.symm hfrne]
    · simp [hfrne]
    · intro i him hip
      simp [him, hip]
    · intro off hoff
      simp [hoff, hfrne]
    · intro off
      simp [hfrne]

/-- Example COW state for the witness: va 0 maps (valid, user, COW) to
page 8192 with refcount 2; the free list holds page 12288; all memory
bytes are 9. -/
def exCow : CowState :=
  ⟨fun x => if x = 0 then some ⟨8192, ⟨true, false, true, true, 0⟩⟩ else none,
   ⟨[12288], fun i => if i = 2 then 2 else 0, fun _ _ => 9⟩⟩

/-- Witness for C3: at kend = 4096, ptop = 20480 the shared-page branch
of cowalloc_spec is exercised concretely: the fresh page 12288 is
returned with refcount 1, the old page's count drops to 1, and the old
contents (byte 9) were copied. -/
theorem cowalloc_spec_witness :
    (cowalloc 4096 20480 false exCow 0).isSome = true ∧
    ((cowalloc 4096 20480 false exCow 0).getD (0, default)).1 = 12288 ∧
    ((cowalloc 4096 20480 false exCow 0).getD (0, default)).2.k.cnt 3 = 1 ∧
    ((cowalloc 4096 20480 false exCow 0).getD (0, default)).2.k.cnt 2 = 1 ∧
    ((cowalloc 4096 20480 false exCow 0).getD (0, default)).2.k.mem 3 0 = 9 := by
  have h := cowalloc_spec 4096 20480 false exCow 0
      ⟨8192, ⟨true, false, true, true, 0⟩⟩ rfl rfl rfl rfl (by decide)
  have h5 := h.2.2.2.2 12288 [] (by decide) rfl (by decide) (by decide)
      (by decide) rfl (by decide) (by decide) (by decide) (by decide)
  have h6 := h5.2 ((cowalloc 4096 20480 false exCow 0).getD (0, default)) rfl
  refine ⟨h5.1, h6.1, h6.2.2.2.2.1, h6.2.2.2.2.2.1.trans (by decide), ?_⟩
  exact (h6.2.2.2.2.2.2.2.1 0 (by decide)).trans rfl

/-! ### Buffer cache: data model (kernel/bio.c)

The pool is a fixed arena of buffers addressed by index; each hash
bucket is the list of indices of the buffers currently linked into its
doubly-linked list, in head-to-tail order, which preserves the O(1)
head-insert and splice of the C lists.  The buf structure itself comes
from the repository's buf.h, which is not under src/; its fields are
taken from the specification's data model and bio.c's uses: dev,
blockno, valid, refcnt, timestamp, the sleep lock, and the data block
(kept abstract as one word since bio.c never inspects individual
bytes).  refcnt is embedded as a mathematical Int, so a decrement of a
zero count yields -1.  Spin locks vanish in the sequential model; the
sleep lock is the boolean slocked, where true means held by the
(single) executing thread. -/

def NBUCKET : Nat := 2

def HASH (id : Nat) : Fin 2 := ⟨id % 2, Nat.mod_lt id (by decide)⟩

structure Buf where
  dev : Nat
  blockno : Nat
  valid : Bool
  refcnt : Int
  timestamp : Nat
  slocked : Bool
  data : Nat
deriving DecidableEq

structure BCache where
  buckets : Fin 2 → List Nat
  buf : Nat → Buf
  disk : Nat → Nat → Nat
  ticks : Nat

instance : Inhabited Buf := ⟨⟨0, 0, false, 0, 0, false, 0⟩⟩

instance : Inhabited BCache := ⟨⟨fun _ => [], fun _ => default, fun _ _ => 0, 0⟩⟩

/-- Replace buffer j of the arena. -/
def updBuf (s : BCache) (j : Nat) (b : Buf) : BCache :=
  { s with buf := fun n => if n = j then b else s.buf n }

/-- The hit scan of bget (bio.c:79-93): first buffer of the home bucket
matching (dev, blockno), in list order. -/
def findMatch (s : BCache) (dev blockno : Nat) : List Nat → Option Nat
  | [] => none
  | j :: rest =>
      if (s.buf j).dev = dev ∧ (s.buf j).blockno = blockno then some j
      else findMatch s dev blockno rest

/-- The candidate test of the victim scan (bio.c:113):
tmp->refcnt == 0 && (b == 0 || tmp->timestamp < b->timestamp). -/
def betterB (s : BCache) (j : Nat) (b : Option Nat) : Bool :=
  decide ((s.buf j).refcnt = 0) &&
    (match b with
     | none => true
     | some b0 => decide ((s.buf j).timestamp < (s.buf b0).timestamp))

/-- The inner victim scan of the miss path (bio.c:110-115), threading
the running best candidate b through the bucket list. -/
def scanLRU (s : BCache) : List Nat → Option Nat → Option Nat
  | [], b => b
  | j :: rest, b => scanLRU s rest (if betterB s j b then some j else b)

/-- The buckets visited by the miss loop (bio.c:100), in modular order
starting at the home bucket: with NBUCKET = 2 these are bid and bid+1.
In a non-reentrant execution the thread only holds the home bucket lock,
so holding() on the other bucket is false and no bucket is skipped. -/
def cycleOrder (bid : Fin 2) : List (Fin 2) := [bid, bid + 1]

/-- One iteration of the miss loop per bucket (bio.c:100-151).  The C
variable b is null at the top of every iteration, because a non-null
candidate makes the previous iteration return, so each bucket scan
starts from none.  A victim found in a non-home bucket is spliced out
of it and head-inserted into the home bucket; the victim is then
reassigned to (dev, blockno) with valid = 0, refcnt = 1, a fresh
timestamp, and its sleep lock is acquired.  An empty list of buckets
left to visit is the panic("bget: no buffers"). -/
def bgetLoop (s : BCache) (dev blockno : Nat) (bid : Fin 2) :
    List (Fin 2) → Option (BCache × Nat)
  | [] => none
  | i :: restb =>
      match scanLRU s (s.buckets i) none with
      | none => bgetLoop s dev blockno bid restb
      | some j =>
          let s1 : BCache :=
            if i = bid then s
            else
              { s with buckets := fun k =>
                  if k = i then (s.buckets i).erase j
                  else if k = bid then j :: s.buckets bid
                  else s.buckets k }
          some (updBuf s1 j
            { s1.buf j with
              blockno := blockno, dev := dev, valid := false,
              refcnt := 1, timestamp := s.ticks, slocked := true }, j)

/-- Embedding of bget (bio.c:69-153).  none is the
panic("bget: no buffers"). -/
def bget (s : BCache) (dev blockno : Nat) : Option (BCache × Nat) :=
  let bid := HASH blockno
  match findMatch s dev blockno (s.buckets bid) with
  | some j =>
      some (updBuf s j
        { s.buf j with
          refcnt := (s.buf j).refcnt + 1, timestamp := s.ticks,
          slocked := true }, j)
  | none => bgetLoop s dev blockno bid (cycleOrder bid)

/-- Embedding of bread (bio.c:156-167): bget, then a disk read into the
buffer when it is not valid, via virtio_disk_rw(b, 0). -/
def bread (s : BCache) (dev blockno : Nat) : Option (BCache × Nat) :=
  match bget s dev blockno with
  | none => none
  | some (s1, j) =>
      if (s1.buf j).valid then some (s1, j)
      else
        some (updBuf s1 j
          { s1.buf j with
            data := s1.disk (s1.buf j).dev (s1.buf j).blockno,
            valid := true }, j)

/-- Embedding of bwrite (bio.c:170-176): panic unless the sleep lock is
held, else write the buffer to the device via virtio_disk_rw(b, 1). -/
def bwrite (s : BCache) (j : Nat) : Option BCache :=
  if (s.buf j).slocked then
    some { s with disk := fun d bn =>
             if d = (s.buf j).dev ∧ bn = (s.buf j).blockno then (s.buf j).data
             else s.disk d bn }
  else none

/-- Embedding of brelse (bio.c:180-199): panic unless the sleep lock is
held, else release it, decrement refcnt and refresh the timestamp. -/
def brelse (s : BCache) (j : Nat) : Option BCache :=
  if (s.buf j).slocked then
    some (updBuf s j
      { s.buf j with
        slocked := false, refcnt := (s.buf j).refcnt - 1,
        timestamp := s.ticks })
  else none

/-- Embedding of bpin (bio.c:201-206). -/
def bpin (s : BCache) (j : Nat) : BCache :=
  updBuf s j { s.buf j with refcnt := (s.buf j).refcnt + 1 }

/-- Embedding of bunpin (bio.c:208-213): decrement refcnt under the
bucket lock, with no positivity check and no sleep-lock requirement. -/
def bunpin (s : BCache) (j : Nat) : BCache :=
  updBuf s j { s.buf j with refcnt := (s.buf j).refcnt - 1 }

/-- Operation language of the buffer cache. -/
inductive BOp where
  | get (dev blockno : Nat)
  | read (dev blockno : Nat)
  | write (j : Nat)
  | relse (j : Nat)
  | pin (j : Nat)
  | unpin (j : Nat)
deriving DecidableEq

/-- One buffer-cache call as a state transition; none is a panic. -/
def bstep (s : BCache) : BOp → Option BCache
  | BOp.get d b => (bget s d b).map Prod.fst
  | BOp.read d b => (bread s d b).map Prod.fst
  | BOp.write j => bwrite s j
  | BOp.relse j => brelse s j
  | BOp.pin j => some (bpin s j)
  | BOp.unpin j => some (bunpin s j)

theorem findMatch_spec (s : BCache) (dev blockno : Nat) :
    ∀ (l : List Nat) (j : Nat), findMatch s dev blockno l = some j →
      j ∈ l ∧ (s.buf j).dev = dev ∧ (s.buf j).blockno = blockno := by
  intro l
  induction l with
  | nil => intro j h; cases h
  | cons a rest ih =>
      intro j h
      simp only [findMatch] at h
      by_cases ha : (s.buf a).dev = dev ∧ (s.buf a).blockno = blockno
      · rw [if_pos ha] at h
        injection h with h
        subst h
        exact ⟨List.mem_cons_self a rest, ha.1, ha.2⟩
      · rw [if_neg ha] at h
        obtain ⟨h1, h2, h3⟩ := ih j h
        exact ⟨List.mem_cons_of_mem a h1, h2, h3⟩

theorem scanLRU_none_iff (s : BCache) :
    ∀ (l : List Nat) (b : Option Nat),
      scanLRU s l b = none ↔ b = none ∧ ∀ k ∈ l, (s.buf k).refcnt ≠ 0 := by
  intro l
  induction l with
  | nil => intro b; simp [scanLRU]
  | cons a rest ih =>
      intro b
      simp only [scanLRU]
      rw [ih]
      by_cases hb : betterB s a b = true
      · rw [if_pos hb]
        have hr0 : (s.buf a).refcnt = 0 := by
          have := hb
          simp only [betterB, Bool.and_eq_true, decide_eq_true_eq] at this
          exact this.1
        constructor
        · rintro ⟨hcon, -⟩; cases hcon
        · rintro ⟨-, hall⟩
          exact absurd hr0 (hall a (List.mem_cons_self a rest))
      · rw [if_neg hb]
        constructor
        · rintro ⟨h1, h2⟩
          subst h1
          refine ⟨rfl, ?_⟩
          intro k hk
          rcases List.mem_cons.mp hk with rfl | hk'
          · intro hcon
            exact hb (by simp [betterB, hcon])
          · exact h2 k hk'
        · rintro ⟨h1, h2⟩
          exact ⟨h1, fun k hk => h2 k (List.mem_cons_of_mem a hk)⟩

theorem scanLRU_some_spec (s : BCache) :
    ∀ (l : List Nat) (b : Option Nat) (j : Nat), scanLRU s l b = some j →
      ((j ∈ l ∧ (s.buf j).refcnt = 0) ∨ b = some j) ∧
      (∀ k ∈ l, (s.buf k).refcnt = 0 →
        (s.buf j).timestamp ≤ (s.buf k).timestamp) ∧
      (∀ b0, b = some b0 →
        (s.buf j).timestamp ≤ (s.buf b0).timestamp) := by
  intro l
  induction l with
  | nil =>
      intro b j h
      simp only [scanLRU] at h
      refine ⟨Or.inr h, by simp, ?_⟩
      intro b0 hb0
      rw [h] at hb0
      injection hb0 with hb0
      subst hb0
      exact le_refl _
  | cons a rest ih =>
      intro b j h
      simp only [scanLRU] at h
      by_cases hb : betterB s a b = true
      · rw [if_pos hb] at h
        have hba : (s.buf a).refcnt = 0 := by
          have := hb
          simp only [betterB, Bool.and_eq_true, decide_eq_true_eq] at this
          exact this.1
        obtain ⟨hmem, hmin, hacc⟩ := ih (some a) j h
        refine ⟨?_, ?_, ?_⟩
        · rcases hmem with ⟨hj, hr⟩ | hj
          · exact Or.inl ⟨List.mem_cons_of_mem a hj, hr⟩
          · injection hj with hj
            subst hj
            exact Or.inl ⟨List.mem_cons_self _ _, hba⟩
        · intro k hk hk0
          rcases List.mem_cons.mp hk with rfl | hk'
          · exact hacc k rfl
          · exact hmin k hk' hk0
        · intro b0 hb0
          cases b with
          | none => cases hb0
          | some b1 =>
              injection hb0 with hb0
              rw [← hb0]
              have hlt : (s.buf a).timestamp < (s.buf b1).timestamp := by
                have := hb
                simp only [betterB, Bool.and_eq_true, decide_eq_true_eq] at this
                exact this.2
              exact le_trans (hacc a rfl) (le_of_lt hlt)
      · rw [if_neg hb] at h
        obtain ⟨hmem, hmin, hacc⟩ := ih b j h
        refine ⟨?_, ?_, hacc⟩
        · rcases hmem with ⟨hj, hr⟩ | hj
          · exact Or.inl ⟨List.mem_cons_of_mem a hj, hr⟩
          · exact Or.inr hj
        · intro k hk hk0
          rcases List.mem_cons.mp hk with rfl | hk'
          · cases b with
            | none => exact absurd (by simp [betterB, hk0]) hb
            | some b0 =>
                have hnlt : ¬ (s.buf k).timestamp < (s.buf b0).timestamp := by
                  intro hcon
                  exact hb (by simp [betterB, hk0, hcon])
                exact le_trans (hacc b0 rfl) (not_lt.mp hnlt)
          · exact hmin k hk' hk0

theorem bgetLoop_none_iff (s : BCache) (dev blockno : Nat) (bid : Fin 2) :
    ∀ (ls : List (Fin 2)),
      bgetLoop s dev blockno bid ls = none ↔
        ∀ i ∈ ls, scanLRU s (s.buckets i) none = none := by
  intro ls
  induction ls with
  | nil => simp [bgetLoop]
  | cons i restb ih =>
      simp only [bgetLoop]
      cases hscan : scanLRU s (s.buckets i) none with
      | none =>
          rw [ih]
          constructor
          · intro hall k hk
            rcases List.mem_cons.mp hk with rfl | hk'
            · exact hscan
            · exact hall k hk'
          · intro hall k hk
            exact hall k (List.mem_cons_of_mem i hk)
      | some j =>
          constructor
          · intro hcon; cases hcon
          · intro hall
            exact absurd hscan (by
              rw [hall i (List.mem_cons_self i restb)]
              intro hcon; cases hcon)

theorem bgetLoop_spec (s : BCache) (dev blockno : Nat) (bid : Fin 2) :
    ∀ (ls : List (Fin 2)) (s' : BCache) (j : Nat),
      bgetLoop s dev blockno bid ls = some (s', j) →
      ∃ i, i ∈ ls ∧
        scanLRU s (s.buckets i) none = some j ∧
        (∀ n, n ≠ j → s'.buf n = s.buf n) ∧
        s'.buf j = { dev := dev, blockno := blockno, valid := false,
                     refcnt := 1, timestamp := s.ticks, slocked := true,
                     data := (s.buf j).data } ∧
        s'.disk = s.disk ∧ s'.ticks = s.ticks ∧
        (i = bid → ∀ k, s'.buckets k = s.buckets k) ∧
        (i ≠ bid →
          s'.buckets i = (s.buckets i).erase j ∧
          s'.buckets bid = j :: s.buckets bid ∧
          ∀ k, k ≠ i → k ≠ bid → s'.buckets k = s.buckets k) := by
  intro ls
  induction ls with
  | nil => intro s' j h; cases h
  | cons i restb ih =>
      intro s' j h
      simp only [bgetLoop] at h
      cases hscan : scanLRU s (s.buckets i) none with
      | none =>
          rw [hscan] at h
          obtain ⟨i2, hi2, hrest⟩ := ih s' j h
          exact ⟨i2, List.mem_cons_of_mem i hi2, hrest⟩
      | some j0 =>
          rw [hscan] at h
          dsimp only at h
          injection h with h
          injection h with h1 h2
          subst h2
          refine ⟨i, List.mem_cons_self i restb, hscan, ?_⟩
          subst h1
          by_cases hib : i = bid
          · subst hib
            refine ⟨?_, ?_, by simp [updBuf], by simp [updBuf], fun _ k => ?_,
                    fun hcon => absurd rfl hcon⟩
            · intro n hn
              simp [updBuf, hn]
            · simp [updBuf]
            · simp [updBuf]
          · refine ⟨?_, ?_, by simp [updBuf, hib], by simp [updBuf, hib],
                    fun hcon => absurd hcon hib, fun _ => ⟨?_, ?_, ?_⟩⟩
            · intro n hn
              simp [updBuf, hib, hn]
            · simp [updBuf, hib]
            · simp [updBuf, hib]
            · simp [updBuf, hib, Ne.symm hib]
            · intro k hki hkbid
              simp [updBuf, hib, hki, hkbid]

theorem bget_shape (s : BCache) (dev blockno : Nat) (s' : BCache) (j : Nat)
    (h : bget s dev blockno = some (s', j)) :
    (∀ n, n ≠ j → s'.buf n = s.buf n) ∧
    ((s.buf j).refcnt = 0 ∨
      ((s'.buf j).dev = (s.buf j).dev ∧
       (s'.buf j).blockno = (s.buf j).blockno)) := by
  simp only [bget] at h
  cases hm : findMatch s dev blockno (s.buckets (HASH blockno)) with
  | some j0 =>
      rw [hm] at h
      dsimp only at h
      injection h with h
      injection h with h1 h2
      subst h2
      subst h1
      obtain ⟨hmem, hdev, hbno⟩ := findMatch_spec s dev blockno _ j0 hm
      refine ⟨?_, Or.inr ⟨?_, ?_⟩⟩
      · intro n hn; simp [updBuf, hn]
      · simp [updBuf, hdev]
      · simp [updBuf, hbno]
  | none =>
      rw [hm] at h
      obtain ⟨i, hi, hscan, hoth, hbufj, _⟩ :=
        bgetLoop_spec s dev blockno _ _ s' j h
      obtain ⟨hmem2, -, -⟩ := scanLRU_some_spec s _ none j hscan
      rcases hmem2 with ⟨-, hr0⟩ | hc
      · exact ⟨hoth, Or.inl hr0⟩
      · cases hc

/-- C4: under any buffer-cache operation, a buffer whose refcnt is
positive keeps its dev and blockno: the only reassignment is bget's
miss path, and it only ever selects a victim whose refcnt is zero. -/
theorem refcnt_pos_no_reassign (s : BCache) (op : BOp) (s' : BCache)
    (hstep : bstep s op = some s') (j : Nat) (hj : 0 < (s.buf j).refcnt) :
    (s'.buf j).dev = (s.buf j).dev ∧
    (s'.buf j).blockno = (s.buf j).blockno := by
  cases op with
  | get d b =>
      simp only [bstep] at hstep
      cases hb : bget s d b with
      | none => rw [hb] at hstep; cases hstep
      | some p =>
          rw [hb, Option.map_some'] at hstep
          injection hstep with hstep
          obtain ⟨s1, j1⟩ := p
          dsimp only at hstep
          subst hstep
          obtain ⟨hoth, hsel⟩ := bget_shape s d b s1 j1 hb
          by_cases hjj : j = j1
          · subst hjj
            rcases hsel with hr0 | hpres
            · omega
            · exact hpres
          · rw [hoth j hjj]; exact ⟨rfl, rfl⟩
  | read d b =>
      simp only [bstep] at hstep
      cases hb : bread s d b with
      | none => rw [hb] at hstep; cases hstep
      | some p =>
          rw [hb, Option.map_some'] at hstep
          injection hstep with hstep
          simp only [bread] at hb
          cases hb2 : bget s d b with
          | none => rw [hb2] at hb; cases hb
          | some q =>
              rw [hb2] at hb
              obtain ⟨s1, j1⟩ := q
              dsimp only at hb
              obtain ⟨hoth, hsel⟩ := bget_shape s d b s1 j1 hb2
              by_cases hv : (s1.buf j1).valid
              · rw [if_pos hv] at hb
                injection hb with hb
                rw [← hb] at hstep
                dsimp only at hstep
                subst hstep
                by_cases hjj : j = j1
                · subst hjj
                  rcases hsel with hr0 | hpres
                  · omega
                  · exact hpres
                · rw [hoth j hjj]; exact ⟨rfl, rfl⟩
              · rw [if_neg hv] at hb
                injection hb with hb
                rw [← hb] at hstep
                dsimp only at hstep
                subst hstep
                by_cases hjj : j = j1
                · subst hjj
                  rcases hsel with hr0 | hpres
                  · omega
                  · have hdev : ((updBuf s1 j
                        { s1.buf j with
                          data := s1.disk (s1.buf j).dev (s1.buf j).blockno,
                          valid := true }).buf j).dev = (s1.buf j).dev := by
                      simp [updBuf]
                    have hbno : ((updBuf s1 j
                        { s1.buf j with
                          data := s1.disk (s1.buf j).dev (s1.buf j).blockno,
                          valid := true }).buf j).blockno = (s1.buf j).blockno := by
                      simp [updBuf]
                    exact ⟨hdev.trans hpres.1, hbno.trans hpres.2⟩
                · have hsame : ((updBuf s1 j1
                      { s1.buf j1 with
                        data := s1.disk (s1.buf j1).dev (s1.buf j1).blockno,
                        valid := true }).buf j) = s1.buf j := by
                    simp [updBuf, hjj]
                  rw [hsame, hoth j hjj]
                  exact ⟨rfl, rfl⟩
  | write j0 =>
      simp only [bstep, bwrite] at hstep
      by_cases hsl : (s.buf j0).slocked
      · rw [if_pos hsl] at hstep
        injection hstep with hstep
        subst hstep
        exact ⟨rfl, rfl⟩
      · rw [if_neg hsl] at hstep; cases hstep
  | relse j0 =>
      simp only [bstep, brelse] at hstep
      by_cases hsl : (s.buf j0).slocked
      · rw [if_pos hsl] at hstep
        injection hstep with hstep
        subst hstep
        by_cases hjj : j = j0
        · subst hjj; constructor <;> simp [updBuf]
        · constructor <;> simp [updBuf, hjj]
      · rw [if_neg hsl] at hstep; cases hstep
  | pin j0 =>
      simp only [bstep, bpin] at hstep
      injection hstep with hstep
      subst hstep
      by_cases hjj : j = j0
      · subst hjj; constructor <;> simp [updBuf]
      · constructor <;> simp [updBuf, hjj]
  | unpin j0 =>
      simp only [bstep, bunpin] at hstep
      injection hstep with hstep
      subst hstep
      by_cases hjj : j = j0
      · subst hjj; constructor <;> simp [updBuf]
      · constructor <;> simp [updBuf, hjj]

/-- Example buffer-cache state for witnesses: buffers 0 and 1 live in
bucket 0; buffer 0 holds (dev 1, block 10) with refcnt 1 and its sleep
lock held; buffer 1 holds (dev 1, block 12) with refcnt 0, timestamp 3;
ticks is 9. -/
def exB : BCache :=
  ⟨fun i => if i = (0 : Fin 2) then [0, 1] else [],
   fun n => if n = 0 then ⟨1, 10, true, 1, 5, true, 77⟩
            else if n = 1 then ⟨1, 12, true, 0, 3, false, 88⟩
            else default,
   fun _ _ => 55, 9⟩

/-- Witness for C4: brelse on buffer 0 of exB succeeds and preserves its
dev, with the hypotheses of refcnt_pos_no_reassign discharged
concretely. -/
theorem refcnt_pos_no_reassign_witness :
    0 < (exB.buf 0).refcnt ∧
    bstep exB (BOp.relse 0) = some ((bstep exB (BOp.relse 0)).getD default) ∧
    (((bstep exB (BOp.relse 0)).getD default).buf 0).dev = (exB.buf 0).dev := by
  refine ⟨by decide, rfl, ?_⟩
  exact (refcnt_pos_no_reassign exB (BOp.relse 0)
    ((bstep exB (BOp.relse 0)).getD default) rfl 0 (by decide)).1

/-- C5: for a block already cached in its home bucket, bget takes the
hit path: it returns that same buffer with refcnt incremented by exactly
one, timestamp set to the current tick value, and the sleep lock
acquired, leaving dev, blockno, valid, data, every other buffer, the
bucket lists and the disk unchanged.  The bucket lock acquire/release
around the scan has no residue in the sequential model. -/
theorem bget_hit_spec (s : BCache) (dev blockno : Nat) (j : Nat)
    (hhit : findMatch s dev blockno (s.buckets (HASH blockno)) = some j) :
    j ∈ s.buckets (HASH blockno) ∧
    (s.buf j).dev = dev ∧ (s.buf j).blockno = blockno ∧
    (bget s dev blockno).isSome = true ∧
    ∀ s' j2, bget s dev blockno = some (s', j2) →
      j2 = j ∧
      (s'.buf j).refcnt = (s.buf j).refcnt + 1 ∧
      (s'.buf j).timestamp = s.ticks ∧
      (s'.buf j).slocked = true ∧
      (s'.buf j).dev = (s.buf j).dev ∧
      (s'.buf j).blockno = (s.buf j).blockno ∧
      (s'.buf j).valid = (s.buf j).valid ∧
      (s'.buf j).data = (s.buf j).data ∧
      (∀ n, n ≠ j → s'.buf n = s.buf n) ∧
      (∀ k, s'.buckets k = s.buckets k) ∧
      s'.disk = s.disk := by
  obtain ⟨hmem, hdev, hbno⟩ := findMatch_spec s dev blockno _ j hhit
  refine ⟨hmem, hdev, hbno, ?_, ?_⟩
  · simp only [bget]
    rw [hhit]
    rfl
  · intro s' j2 h
    simp only [bget] at h
    rw [hhit] at h
    dsimp only at h
    injection h with h
    injection h with h1 h2
    subst h2
    subst h1
    refine ⟨rfl, by simp [updBuf], by simp [updBuf], by simp [updBuf],
            by simp [updBuf], by simp [updBuf], by simp [updBuf],
            by simp [updBuf], ?_, fun k => rfl, rfl⟩
    intro n hn
    simp [updBuf, hn]

/-- Witness for C5: in exB, block (1, 10) is cached as buffer 0 of its
home bucket; bget returns it with refcnt bumped from 1 to 2. -/
theorem bget_hit_spec_witness :
    findMatch exB 1 10 (exB.buckets (HASH 10)) = some 0 ∧
    (bget exB 1 10).isSome = true ∧
    (((bget exB 1 10).getD default).1.buf 0).refcnt = (exB.buf 0).refcnt + 1 := by
  have h := bget_hit_spec exB 1 10 0 rfl
  refine ⟨rfl, h.2.2.2.1, ?_⟩
  exact (h.2.2.2.2 ((bget exB 1 10).getD default).1
    ((bget exB 1 10).getD default).2 rfl).2.1

/-- C9: bwrite and brelse panic, with no state modified, exactly when
the caller does not hold the buffer's sleep lock; when it is held,
bwrite writes the buffer's data to the device block and changes no
buffer, and brelse releases the lock, decrements refcnt, and refreshes
the timestamp. -/
theorem bwrite_brelse_sleeplock (s : BCache) (j : Nat) :
    ((s.buf j).slocked = false →
       bstep s (BOp.write j) = none ∧ bstep s (BOp.relse j) = none) ∧
    ((s.buf j).slocked = true →
       (bstep s (BOp.write j)).isSome = true ∧
       (∀ s', bstep s (BOp.write j) = some s' →
          s'.disk (s.buf j).dev (s.buf j).blockno = (s.buf j).data ∧
          (∀ n, s'.buf n = s.buf n)) ∧
       (bstep s (BOp.relse j)).isSome = true ∧
       (∀ s', bstep s (BOp.relse j) = some s' →
          (s'.buf j).slocked = false ∧
          (s'.buf j).refcnt = (s.buf j).refcnt - 1 ∧
          (s'.buf j).timestamp = s.ticks ∧
          (∀ n, n ≠ j → s'.buf n = s.buf n))) := by
  constructor
  · intro hsl
    constructor
    · simp only [bstep, bwrite, hsl]
      rfl
    · simp only [bstep, brelse, hsl]
      rfl
  · intro hsl
    refine ⟨?_, ?_, ?_, ?_⟩
    · simp only [bstep, bwrite, hsl]
      rfl
    · intro s' h
      simp only [bstep, bwrite, hsl, if_true] at h
      injection h with h
      subst h
      exact ⟨by simp, fun n => rfl⟩
    · simp only [bstep, brelse, hsl]
      rfl
    · intro s' h
      simp only [bstep, brelse, hsl, if_true] at h
      injection h with h
      subst h
      refine ⟨by simp [updBuf], by simp [updBuf], by simp [updBuf], ?_⟩
      intro n hn
      simp [updBuf, hn]

/-- Witness for C9: buffer 0 of exB holds its sleep lock, so bwrite
writes data 77 to disk block (1, 10); buffer 1 does not, so both bwrite
and brelse on it panic. -/
theorem bwrite_brelse_sleeplock_witness :
    (exB.buf 0).slocked = true ∧
    (((bstep exB (BOp.write 0)).getD default).disk 1 10 = 77) ∧
    (exB.buf 1).slocked = false ∧
    bstep exB (BOp.write 1) = none ∧ bstep exB (BOp.relse 1) = none := by
  have h0 := (bwrite_brelse_sleeplock exB 0).2 rfl
  have h1 := (bwrite_brelse_sleeplock exB 1).1 rfl
  refine ⟨rfl, ?_, rfl, h1.1, h1.2⟩
  exact (h0.2.1 ((bstep exB (BOp.write 0)).getD default) rfl).1

/-- C10: bunpin decrements refcnt by exactly one, for every state: no
positivity check and no sleep-lock requirement (the theorem has no
hypothesis on slocked or refcnt, and the step never panics); in
particular on a buffer with refcnt 0 the new refcnt is -1. -/
theorem bunpin_spec (s : BCache) (j : Nat) :
    bstep s (BOp.unpin j) = some (bunpin s j) ∧
    ((bunpin s j).buf j).refcnt = (s.buf j).refcnt - 1 ∧
    (∀ n, n ≠ j → (bunpin s j).buf n = s.buf n) ∧
    ((s.buf j).refcnt = 0 → ((bunpin s j).buf j).refcnt = -1) := by
  refine ⟨rfl, by simp [bunpin, updBuf], ?_, ?_⟩
  · intro n hn
    simp [bunpin, updBuf, hn]
  · intro h0
    simp [bunpin, updBuf, h0]

/-- Witness for C10: buffer 1 of exB has refcnt 0 and bunpin drives it
to -1. -/
theorem bunpin_spec_witness :
    (exB.buf 1).refcnt = 0 ∧ ((bunpin exB 1).buf 1).refcnt = -1 :=
  ⟨by decide, (bunpin_spec exB 1).2.2.2 (by decide)⟩

theorem fin2_cover (bid i : Fin 2) : i = bid ∨ i = bid + 1 := by
  fin_cases bid <;> fin_cases i <;> simp

theorem fin2_succ_ne (bid : Fin 2) : bid + 1 ≠ bid := by
  fin_cases bid <;> simp

/-- C8: with the data model's non-negative refcnt and assuming the miss
path is reached (the block is not cached in its home bucket) and bget is
not invoked recursively (so no bucket is skipped), bget panics with
"bget: no buffers" exactly when every buffer in every bucket has
refcnt > 0; when some bucketed buffer has refcnt 0, it returns a
buffer. -/
theorem bget_panic_iff (s : BCache) (dev blockno : Nat)
    (hmiss : findMatch s dev blockno (s.buckets (HASH blockno)) = none)
    (hnn : ∀ (i : Fin 2), ∀ k ∈ s.buckets i, 0 ≤ (s.buf k).refcnt) :
    (bget s dev blockno = none ↔
      ∀ (i : Fin 2), ∀ k ∈ s.buckets i, 0 < (s.buf k).refcnt) ∧
    ((∃ i : Fin 2, ∃ k ∈ s.buckets i, (s.buf k).refcnt = 0) →
      (bget s dev blockno).isSome = true) := by
  have hloop : bget s dev blockno =
      bgetLoop s dev blockno (HASH blockno) (cycleOrder (HASH blockno)) := by
    simp only [bget]
    rw [hmiss]
  have hiff : bget s dev blockno = none ↔
      ∀ (i : Fin 2), ∀ k ∈ s.buckets i, 0 < (s.buf k).refcnt := by
    rw [hloop, bgetLoop_none_iff]
    constructor
    · intro hall i k hk
      have hi : i ∈ cycleOrder (HASH blockno) := by
        rcases fin2_cover (HASH blockno) i with h | h <;>
          simp [cycleOrder, h]
      have hz := ((scanLRU_none_iff s _ none).mp (hall i hi)).2 k hk
      have := hnn i k hk
      omega
    · intro hall i _
      rw [scanLRU_none_iff]
      refine ⟨rfl, fun k hk => ?_⟩
      have := hall i k hk
      omega
  refine ⟨hiff, ?_⟩
  rintro ⟨i, k, hk, hk0⟩
  cases hres : bget s dev blockno with
  | some p => rfl
  | none =>
      exfalso
      have := hiff.mp hres i k hk
      omega

/-- Witness for C8: in exB the uncached block (2, 14) misses; buffer 1
in bucket 0 has refcnt 0, so bget returns a buffer instead of
panicking. -/
theorem bget_panic_iff_witness :
    findMatch exB 2 14 (exB.buckets (HASH 14)) = none ∧
    (bget exB 2 14).isSome = true := by
  refine ⟨rfl, ?_⟩
  exact (bget_panic_iff exB 2 14 rfl (by decide)).2 ⟨0, 1, by decide, by decide⟩

/-- C1: on a miss, the victim buffer comes from the first bucket in
modular order starting at the home bucket HASH(blockno) that contains a
buffer with refcnt 0, and within that bucket it has the smallest
timestamp among the refcnt-0 buffers; when that bucket is the home
bucket the bucket lists are unchanged, otherwise the victim is spliced
out of its bucket and head-inserted into the home bucket; in all cases
the victim is reassigned to (dev, blockno) with valid = 0, refcnt = 1,
a fresh timestamp (the current tick value) and its sleep lock held, all
other buffers unchanged. -/
theorem bget_miss_lru (s : BCache) (dev blockno : Nat)
    (hmiss : findMatch s dev blockno (s.buckets (HASH blockno)) = none)
    (s' : BCache) (j : Nat)
    (hres : bget s dev blockno = some (s', j)) :
    ((∃ k ∈ s.buckets (HASH blockno), (s.buf k).refcnt = 0) →
       j ∈ s.buckets (HASH blockno) ∧ (s.buf j).refcnt = 0 ∧
       (∀ k ∈ s.buckets (HASH blockno), (s.buf k).refcnt = 0 →
          (s.buf j).timestamp ≤ (s.buf k).timestamp) ∧
       (∀ k, s'.buckets k = s.buckets k)) ∧
    ((∀ k ∈ s.buckets (HASH blockno), (s.buf k).refcnt ≠ 0) →
       j ∈ s.buckets (HASH blockno + 1) ∧ (s.buf j).refcnt = 0 ∧
       (∀ k ∈ s.buckets (HASH blockno + 1), (s.buf k).refcnt = 0 →
          (s.buf j).timestamp ≤ (s.buf k).timestamp) ∧
       s'.buckets (HASH blockno + 1) = (s.buckets (HASH blockno + 1)).erase j ∧
       s'.buckets (HASH blockno) = j :: s.buckets (HASH blockno)) ∧
    s'.buf j = { dev := dev, blockno := blockno, valid := false, refcnt := 1,
                 timestamp := s.ticks, slocked := true,
                 data := (s.buf j).data } ∧
    (∀ n, n ≠ j → s'.buf n = s.buf n) := by
  simp only [bget] at hres
  rw [hmiss] at hres
  simp only [cycleOrder, bgetLoop] at hres
  cases hscan1 : scanLRU s (s.buckets (HASH blockno)) none with
  | some j0 =>
      rw [hscan1] at hres
      dsimp only at hres
      injection hres with hres
      injection hres with h1 h2
      subst h2
      subst h1
      obtain ⟨hmem, hmin, -⟩ := scanLRU_some_spec s _ none j0 hscan1
      rcases hmem with ⟨hjmem, hj0⟩ | hc
      · refine ⟨?_, ?_, ?_, ?_⟩
        · intro _
          exact ⟨hjmem, hj0, fun k hk hk0 => hmin k hk hk0,
                 fun k => by simp [updBuf]⟩
        · intro hall
          exact absurd hj0 (hall j0 hjmem)
        · simp [updBuf]
        · intro n hn
          simp [updBuf, hn]
      · cases hc
  | none =>
      rw [hscan1] at hres
      dsimp only at hres
      cases hscan2 : scanLRU s (s.buckets (HASH blockno + 1)) none with
      | none =>
          rw [hscan2] at hres
          cases hres
      | some j0 =>
          rw [hscan2] at hres
          dsimp only at hres
          injection hres with hres
          injection hres with h1 h2
          subst h2
          have hallz := ((scanLRU_none_iff s _ none).mp hscan1).2
          obtain ⟨hmem, hmin, -⟩ := scanLRU_some_spec s _ none j0 hscan2
          rcases hmem with ⟨hjmem, hj0⟩ | hc
          · rw [if_neg (fin2_succ_ne (HASH blockno))] at h1
            subst h1
            refine ⟨?_, ?_, ?_, ?_⟩
            · rintro ⟨k, hk, hk0⟩
              exact absurd hk0 (hallz k hk)
            · intro _
              refine ⟨hjmem, hj0, fun k hk hk0 => hmin k hk hk0, ?_, ?_⟩
              · simp [updBuf]
              · simp [updBuf, Ne.symm (fin2_succ_ne (HASH blockno))]
            · simp [updBuf]
            · intro n hn
              simp [updBuf, hn]
          · cases hc

/-- Witness for C1: in exB, block (1, 13) hashes to the empty bucket 1;
the victim is buffer 1 of bucket 0 (timestamp 3, beating timestamp 5 of
buffer 0 which anyway has refcnt 1), spliced into bucket 1 and
reassigned, with all hypotheses of bget_miss_lru discharged
concretely. -/
theorem bget_miss_lru_witness :
    findMatch exB 1 13 (exB.buckets (HASH 13)) = none ∧
    bget exB 1 13 = some ((bget exB 1 13).getD default) ∧
    (((bget exB 1 13).getD default).1.buckets (HASH 13) =
      ((bget exB 1 13).getD default).2 :: exB.buckets (HASH 13)) ∧
    (((bget exB 1 13).getD default).1.buf
      ((bget exB 1 13).getD default).2).blockno = 13 := by
  have h := bget_miss_lru exB 1 13 rfl
    ((bget exB 1 13).getD default).1 ((bget exB 1 13).getD default).2 rfl
  have h2 := h.2.1 (by decide)
  refine ⟨rfl, rfl, h2.2.2.2.2, ?_⟩
  rw [h.2.2.1]
